import Mathlib

set_option maxRecDepth 10000

/-!
Shallow embedding of the Split & Settlement Engine
(src/expense_calculator.py, src/settlement.py, src/models.py).

Monetary amounts are modelled as rationals.  `np.round(x, 2)` is modelled by
`round2`, rounding to the nearest multiple of 1/100 with ties to even
(numpy's rounding rule).  Python `dict`s (insertion ordered) are modelled as
association lists.  Exceptions (`ValueError`, `KeyError`, `ZeroDivisionError`)
are modelled with `Except String`.  The uuid `id` and timestamp fields of
`Expense`/`ExpenseGroup` are omitted: they are never read by the computations the
claims are about.
-/

/-- Round a rational to the nearest integer, ties to even (numpy's rounding
rule).  Written with integer arithmetic on the numerator and denominator:
`f = ⌊q⌋` and `r/den` is the fractional part, compared against 1/2. -/
def rhe (q : ℚ) : ℤ :=
  let f := Int.fdiv q.num q.den
  let r := q.num - f * (q.den : ℤ)
  if 2 * r < (q.den : ℤ) then f
  else if (q.den : ℤ) < 2 * r then f + 1
  else if f % 2 = 0 then f else f + 1

/-- `np.round(q, 2)`: round to two decimal places, ties to even. -/
def round2 (q : ℚ) : ℚ := Rat.divInt (rhe (100 * q)) 100

/-- Decidable-by-computation equality test on ℚ (numerator and denominator
agree); used to evaluate concrete rational equalities. -/
def qeqB (a b : ℚ) : Bool := a.num == b.num && a.den == b.den

/-- A rational that is a whole number of cents (a 2-decimal amount). -/
def Cent (q : ℚ) : Prop := ∃ k : ℤ, q = (k : ℚ) / 100

/-- `np.isclose(a, b)` with numpy's default tolerances
`rtol = 1e-5`, `atol = 1e-8`. -/
def npIsclose (a b : ℚ) : Bool :=
  decide (|a - b| ≤ 1 / 100000000 + (1 / 100000) * |b|)

/-- `SplitMethod` enum from src/models.py. -/
inductive SplitMethod where
  | equal
  | percentage
  | shares
  | custom
deriving DecidableEq, Repr

/-- `ExpenseSplit` dataclass from src/models.py. -/
structure ExpenseSplit where
  participant_id : String
  amount : ℚ
  percentage : Option ℚ
  shares : Option ℤ
deriving DecidableEq, Repr

/-- `Expense` dataclass from src/models.py (uuid/date fields omitted). -/
structure Expense where
  description : String
  total_amount : ℚ
  paid_by : String
  currency : String
  split_method : SplitMethod
  splits : List ExpenseSplit
  category : Option String
deriving DecidableEq, Repr

/-- `Participant` dataclass from src/models.py. -/
structure Participant where
  name : String
  id : String
  email : Option String
deriving DecidableEq, Repr

/-- `Settlement` dataclass from src/models.py. -/
structure Settlement where
  from_participant : String
  to_participant : String
  amount : ℚ
  currency : String
deriving DecidableEq, Repr

/-- `Group` dataclass (renamed: Mathlib already declares `Group`) from src/models.py (uuid/created_at omitted). -/
structure ExpenseGroup where
  name : String
  participants : List Participant
  expenses : List Expense
  base_currency : String
deriving DecidableEq, Repr

/-- The participant ids of a group, in order. -/
def ExpenseGroup.pids (g : ExpenseGroup) : List String := g.participants.map Participant.id

/-- `ExpenseCalculator.add_expense_equal`.  `participants? = none` models the
Python default `participants=None` (all group participants).  A division by
zero (`total_amount / n` with `n = 0`) raises `ZeroDivisionError` in Python,
modelled as an error. -/
def addExpenseEqual (g : ExpenseGroup) (description : String) (total_amount : ℚ)
    (paid_by : String) (participants? : Option (List String))
    (currency : String) (category : Option String) :
    Except String (ExpenseGroup × Expense) :=
  let participants := participants?.getD g.pids
  let n := participants.length
  if n = 0 then Except.error ("ZeroDivisionError: division by zero")
  else
    let amount_per_person := round2 (total_amount / (n : ℚ))
    let remainder := total_amount - (n : ℚ) * amount_per_person
    let base := List.replicate n amount_per_person
    let amounts :=
      if remainder ≠ 0 then base.set 0 (amount_per_person + round2 remainder)
      else base
    let splits := (participants.zip amounts).map
      (fun pa => ExpenseSplit.mk pa.1 pa.2 none none)
    let expense := Expense.mk description total_amount paid_by currency
      SplitMethod.equal splits category
    Except.ok ({ g with expenses := g.expenses ++ [expense] }, expense)

/-- `ExpenseCalculator.add_expense_percentage`. -/
def addExpensePercentage (g : ExpenseGroup) (description : String) (total_amount : ℚ)
    (paid_by : String) (percentages : List (String × ℚ))
    (currency : String) (category : Option String) :
    Except String (ExpenseGroup × Expense) :=
  let pctSum := (percentages.map Prod.snd).sum
  if npIsclose pctSum 100 then
    let splits := percentages.map
      (fun pp => ExpenseSplit.mk pp.1 (round2 (total_amount * (pp.2 / 100)))
        (some pp.2) none)
    let expense := Expense.mk description total_amount paid_by currency
      SplitMethod.percentage splits category
    Except.ok ({ g with expenses := g.expenses ++ [expense] }, expense)
  else Except.error ("ValueError: Percentages must sum to 100")

/-- `ExpenseCalculator.add_expense_shares`.  When the share counts sum to 0,
numpy evaluates `share_count / total_shares` as `0/0 = nan` (with a runtime
warning) rather than raising an exception; the rational model cannot
represent NaN, so the amounts written in that degenerate case are not
meaningful, but the control-flow fact that no exception is raised is
faithful to the source. -/
def addExpenseShares (g : ExpenseGroup) (description : String) (total_amount : ℚ)
    (paid_by : String) (shares : List (String × ℤ))
    (currency : String) (category : Option String) :
    Except String (ExpenseGroup × Expense) :=
  let total_shares : ℤ := (shares.map Prod.snd).sum
  let splits := shares.map
    (fun ps => ExpenseSplit.mk ps.1
      (round2 (total_amount * ((ps.2 : ℚ) / (total_shares : ℚ))))
      none (some ps.2))
  let expense := Expense.mk description total_amount paid_by currency
    SplitMethod.shares splits category
  Except.ok ({ g with expenses := g.expenses ++ [expense] }, expense)

/-- `ExpenseCalculator.add_expense_custom`.  Note the custom amounts are
stored as given, without rounding. -/
def addExpenseCustom (g : ExpenseGroup) (description : String) (total_amount : ℚ)
    (paid_by : String) (custom_amounts : List (String × ℚ))
    (currency : String) (category : Option String) :
    Except String (ExpenseGroup × Expense) :=
  let amtSum := (custom_amounts.map Prod.snd).sum
  if npIsclose amtSum total_amount then
    let splits := custom_amounts.map
      (fun pa => ExpenseSplit.mk pa.1 pa.2 none none)
    let expense := Expense.mk description total_amount paid_by currency
      SplitMethod.custom splits category
    Except.ok ({ g with expenses := g.expenses ++ [expense] }, expense)
  else Except.error ("ValueError: Custom amounts must sum to total")

/-- Update the first binding of `key` in an association list, `none` when the
key is absent (a Python `dict` access raising `KeyError`). -/
def lookupUpd (l : List (String × ℚ)) (key : String) (f : ℚ → ℚ) :
    Option (List (String × ℚ)) :=
  match l with
  | [] => none
  | (k, v) :: rest =>
    if k = key then some ((k, f v) :: rest)
    else (lookupUpd rest key f).map (fun r => (k, v) :: r)

/-- Read the value bound to `key` (first binding; 0 when absent — only used
where presence is guaranteed). -/
def lookupVal : List (String × ℚ) → String → ℚ
  | [], _ => 0
  | (k, v) :: rest, key => if k = key then v else lookupVal rest key

/-- Debit each split participant (the inner loop of `get_balances`). -/
def debitSplits : List (String × ℚ) → List ExpenseSplit →
    Except String (List (String × ℚ))
  | bal, [] => Except.ok bal
  | bal, s :: rest =>
    match lookupUpd bal s.participant_id (fun v => v - s.amount) with
    | none => Except.error ("KeyError: " ++ s.participant_id)
    | some b => debitSplits b rest

/-- Process one expense in `get_balances`: credit the payer the full amount,
then debit every split. -/
def processExpense (bal : List (String × ℚ)) (e : Expense) :
    Except String (List (String × ℚ)) :=
  match lookupUpd bal e.paid_by (fun v => v + e.total_amount) with
  | none => Except.error ("KeyError: " ++ e.paid_by)
  | some b => debitSplits b e.splits

/-- Fold `processExpense` over the expense list. -/
def processExpenses : List (String × ℚ) → List Expense →
    Except String (List (String × ℚ))
  | bal, [] => Except.ok bal
  | bal, e :: rest =>
    match processExpense bal e with
    | Except.error m => Except.error m
    | Except.ok b => processExpenses b rest

/-- `ExpenseCalculator.get_balances`: rows `(participant_id, name, balance)`
with each balance rounded to 2 decimals. -/
def getBalances (g : ExpenseGroup) : Except String (List (String × String × ℚ)) :=
  let init := g.participants.map (fun p => (p.id, (0 : ℚ)))
  match processExpenses init g.expenses with
  | Except.error m => Except.error m
  | Except.ok bal =>
    Except.ok (g.participants.map
      (fun p => (p.id, p.name, round2 (lookupVal bal p.id))))

/-- `np.argmax` on the balance array (first index of the maximum), tracked
together with the running best value. -/
def argmaxAux : List ℚ → Nat → Nat → ℚ → Nat × ℚ
  | [], _, bi, bv => (bi, bv)
  | x :: xs, i, bi, bv =>
    if bv < x then argmaxAux xs (i + 1) i x else argmaxAux xs (i + 1) bi bv

/-- `np.argmin` (first index of the minimum). -/
def argminAux : List ℚ → Nat → Nat → ℚ → Nat × ℚ
  | [], _, bi, bv => (bi, bv)
  | x :: xs, i, bi, bv =>
    if x < bv then argminAux xs (i + 1) i x else argminAux xs (i + 1) bi bv

def argmaxIdx (l : List ℚ) : Nat :=
  match l with
  | [] => 0
  | x :: xs => (argmaxAux xs 1 0 x).1

def argminIdx (l : List ℚ) : Nat :=
  match l with
  | [] => 0
  | x :: xs => (argminAux xs 1 0 x).1

/-- One iteration of the `while True` loop in
`SettlementOptimizer.calculate_optimal_settlements`; `none` is a `break`.
(`np.argmax` of an empty array raises in numpy; the empty case is treated as
an immediate break and is never reached from a group.) -/
def settleStep (ps : List String) (cur : String) (bs : List ℚ) :
    Option (Settlement × List ℚ) :=
  let i := argmaxIdx bs
  let j := argminIdx bs
  let mc := bs.getD i 0
  let md := bs.getD j 0
  if mc < 1/100 ∧ |md| < 1/100 then none
  else
    let t := round2 (min mc |md|)
    if t < 1/100 then none
    else
      let bs1 := bs.set i (mc - t)
      let bs2 := bs1.set j (bs1.getD j 0 + t)
      some (Settlement.mk (ps.getD j ("")) (ps.getD i ("")) t cur, bs2)

/-- The settlement loop, with explicit fuel.  The source loop is unbounded;
fuel `n + 1` suffices for every balance vector of whole-cent amounts summing
to zero (proved below), which is what `get_balances` produces. -/
def settleLoop : Nat → List String → String → List ℚ →
    List Settlement × List ℚ
  | 0, _, _, bs => ([], bs)
  | Nat.succ fuel, ps, cur, bs =>
    match settleStep ps cur bs with
    | none => ([], bs)
    | some (s, bs2) =>
      let r := settleLoop fuel ps cur bs2
      (s :: r.1, r.2)

/-- `SettlementOptimizer.calculate_optimal_settlements`. -/
def calculateOptimalSettlements (g : ExpenseGroup) : Except String (List Settlement) :=
  match getBalances g with
  | Except.error m => Except.error m
  | Except.ok rows =>
    let ps := rows.map (fun r => r.1)
    let bs := rows.map (fun r => r.2.2)
    Except.ok (settleLoop (bs.length + 1) ps g.base_currency bs).1

/-- `calculate_min_transactions` from src/settlement.py:
`max(0, |{i : |b_i| > 0.01}| - 1)`. -/
def calculateMinTransactions (bs : List ℚ) : ℤ :=
  max 0 (((bs.filter (fun b => decide (1/100 < |b|))).length : ℤ) - 1)

/-- Number of entries with non-zero balance. -/
def countNZ (bs : List ℚ) : Nat := (bs.filter (fun b => decide (b ≠ 0))).length

/-- Apply one settlement to a named balance vector: the debtor
(`from_participant`) is credited the amount, the creditor
(`to_participant`) is debited it. -/
def applySettlement (ps : List String) (s : Settlement) (bs : List ℚ) :
    List ℚ :=
  (ps.zip bs).map (fun pb =>
    if pb.1 = s.from_participant then pb.2 + s.amount
    else if pb.1 = s.to_participant then pb.2 - s.amount
    else pb.2)

/-- Apply a list of settlements in order. -/
def applySettlements (ps : List String) (ss : List Settlement) (bs : List ℚ) :
    List ℚ :=
  ss.foldl (fun b s => applySettlement ps s b) bs

/-- `qeqB` decides rational equality. -/
theorem qeqB_iff (a b : ℚ) : qeqB a b = true ↔ a = b := by
  constructor
  · intro h
    simp [qeqB] at h
    exact Rat.ext h.1 h.2
  · intro h
    subst h
    simp [qeqB]

theorem round2_eq_div (q : ℚ) : round2 q = ((rhe (100 * q) : ℤ) : ℚ) / 100 := by
  rw [round2, Rat.divInt_eq_div]
  norm_num

theorem rhe_intCast (k : ℤ) : rhe ((k : ℤ) : ℚ) = k := by
  unfold rhe
  simp only [Rat.num_intCast, Rat.den_intCast, Nat.cast_one, mul_one]
  have h1 : Int.fdiv k 1 = k := by
    rw [Int.fdiv_eq_ediv k (by norm_num)]
    exact Int.ediv_one k
  rw [h1]
  simp

theorem Cent.intMul (k : ℤ) {q : ℚ} (h : Cent q) : Cent ((k : ℚ) * q) := by
  obtain ⟨m, rfl⟩ := h
  exact ⟨k * m, by push_cast; ring⟩

theorem Cent.natMul (n : ℕ) {q : ℚ} (h : Cent q) : Cent ((n : ℚ) * q) := by
  obtain ⟨m, rfl⟩ := h
  exact ⟨(n : ℤ) * m, by push_cast; ring⟩

theorem Cent.add {a b : ℚ} (ha : Cent a) (hb : Cent b) : Cent (a + b) := by
  obtain ⟨j, rfl⟩ := ha
  obtain ⟨k, rfl⟩ := hb
  exact ⟨j + k, by push_cast; ring⟩

theorem Cent.sub {a b : ℚ} (ha : Cent a) (hb : Cent b) : Cent (a - b) := by
  obtain ⟨j, rfl⟩ := ha
  obtain ⟨k, rfl⟩ := hb
  exact ⟨j - k, by push_cast; ring⟩

theorem Cent.neg {a : ℚ} (ha : Cent a) : Cent (-a) := by
  obtain ⟨j, rfl⟩ := ha
  exact ⟨-j, by push_cast; ring⟩

theorem Cent.abs {a : ℚ} (ha : Cent a) : Cent |a| := by
  rcases abs_choice a with h | h
  · rw [h]; exact ha
  · rw [h]; exact ha.neg

theorem Cent.min {a b : ℚ} (ha : Cent a) (hb : Cent b) : Cent (min a b) := by
  rcases min_choice a b with h | h
  · rw [h]; exact ha
  · rw [h]; exact hb

theorem Cent.zero : Cent 0 := ⟨0, by norm_num⟩

theorem Cent_round2 (q : ℚ) : Cent (round2 q) :=
  ⟨rhe (100 * q), round2_eq_div q⟩

theorem round2_cent {q : ℚ} (h : Cent q) : round2 q = q := by
  obtain ⟨k, rfl⟩ := h
  rw [round2_eq_div]
  have h2 : (100 : ℚ) * ((k : ℚ) / 100) = ((k : ℤ) : ℚ) := by
    field_simp
  rw [h2, rhe_intCast]

theorem cent_iff_den (q : ℚ) : Cent q ↔ (100 * q).den = 1 := by
  constructor
  · rintro ⟨k, rfl⟩
    have h2 : (100 : ℚ) * ((k : ℚ) / 100) = ((k : ℤ) : ℚ) := by
      field_simp
    rw [h2, Rat.den_intCast]
  · intro h
    refine ⟨(100 * q).num, ?_⟩
    have h2 : (((100 * q).num : ℤ) : ℚ) = 100 * q := (Rat.den_eq_one_iff _).mp h
    rw [h2]
    field_simp

-- list helper lemmas

theorem map_snd_zip_eq : ∀ (l1 : List String) (l2 : List ℚ),
    l1.length = l2.length → (l1.zip l2).map Prod.snd = l2
  | [], [], _ => rfl
  | _ :: t1, _ :: t2, h => by
    simp only [List.zip_cons_cons, List.map_cons, List.cons.injEq, true_and]
    exact map_snd_zip_eq t1 t2 (by simpa using h)

theorem replicate_set_sum (m : ℕ) (a v : ℚ) :
    ((List.replicate (m + 1) a).set 0 v).sum = v + (m : ℚ) * a := by
  simp [List.replicate_succ, List.sum_replicate, nsmul_eq_mul]

theorem replicate_set_self (n : ℕ) (a : ℚ) :
    (List.replicate n a).set 0 a = List.replicate n a := by
  cases n with
  | zero => rfl
  | succ m => simp [List.replicate_succ]

/-- Claim C1: for an Equal split over a non-empty explicit participant list
and a positive 2-decimal total, the produced split amounts give every
participant `round2 (total / n)` with the signed remainder
`total - n * round2 (total / n)` added entirely to the first participant of
the input-ordered list, and they sum to the total exactly. -/
theorem equal_split_sum_invariant
    (g : ExpenseGroup) (desc : String) (t : ℚ) (paid : String)
    (pids : List String) (cur : String) (cat : Option String)
    (hn : pids ≠ []) (ht : (100 * t).den = 1) (hpos : 0 < t) :
    ∃ gr e, addExpenseEqual g desc t paid (some pids) cur cat =
        Except.ok (gr, e) ∧
      e.splits.map ExpenseSplit.amount =
        (List.replicate pids.length (round2 (t / (pids.length : ℚ)))).set 0
          (round2 (t / (pids.length : ℚ)) +
            (t - (pids.length : ℚ) * round2 (t / (pids.length : ℚ)))) ∧
      (e.splits.map ExpenseSplit.amount).sum = t ∧
      gr = { g with expenses := g.expenses ++ [e] } := by
  have hn0 : pids.length ≠ 0 := by
    simpa [List.length_eq_zero] using hn
  have hcent : Cent t := (cent_iff_den t).mpr ht
  set n := pids.length with hnn
  set share := round2 (t / (n : ℚ)) with hshare
  set rem := t - (n : ℚ) * share with hrem
  have hcshare : Cent share := Cent_round2 _
  have hcrem : Cent rem := hcent.sub (hcshare.natMul n)
  have hr2rem : round2 rem = rem := round2_cent hcrem
  have hamts :
      (if rem ≠ 0 then (List.replicate n share).set 0 (share + round2 rem)
        else List.replicate n share) =
      (List.replicate n share).set 0 (share + rem) := by
    by_cases h : rem = 0
    · rw [if_neg (by simp [h])]
      rw [h, add_zero, replicate_set_self]
    · rw [if_pos h, hr2rem]
  have heq : addExpenseEqual g desc t paid (some pids) cur cat =
      Except.ok
        ({ g with expenses := g.expenses ++
            [Expense.mk desc t paid cur SplitMethod.equal
              (((pids.zip ((List.replicate n share).set 0 (share + rem))).map
                (fun pa => ExpenseSplit.mk pa.1 pa.2 none none))) cat] },
          Expense.mk desc t paid cur SplitMethod.equal
            ((pids.zip ((List.replicate n share).set 0 (share + rem))).map
              (fun pa => ExpenseSplit.mk pa.1 pa.2 none none)) cat) := by
    unfold addExpenseEqual
    simp only [Option.getD_some]
    rw [if_neg hn0]
    rw [← hnn, ← hshare, ← hrem, hamts]
  refine ⟨_, _, heq, ?_, ?_, rfl⟩
  · have hlen : pids.length =
        ((List.replicate n share).set 0 (share + rem)).length := by
      simp [hnn]
    rw [List.map_map]
    have := map_snd_zip_eq pids ((List.replicate n share).set 0 (share + rem)) hlen
    simpa using this
  · have hlen : pids.length =
        ((List.replicate n share).set 0 (share + rem)).length := by
      simp [hnn]
    rw [List.map_map]
    have hmz := map_snd_zip_eq pids
      ((List.replicate n share).set 0 (share + rem)) hlen
    have hmz2 : (pids.zip ((List.replicate n share).set 0 (share + rem))).map
        ((fun s => s.amount) ∘ fun pa => ExpenseSplit.mk pa.1 pa.2 none none) =
        (List.replicate n share).set 0 (share + rem) := by
      simpa using hmz
    rw [hmz2]
    obtain ⟨m, hm⟩ := Nat.exists_eq_succ_of_ne_zero hn0
    rw [hm, replicate_set_sum]
    have hcast : ((n : ℚ)) = (m : ℚ) + 1 := by
      rw [hm]
      push_cast
      ring
    rw [hrem, hcast]
    ring

/-- A small concrete group used by witnesses. -/
def gW : ExpenseGroup :=
  ExpenseGroup.mk ("w")
    [Participant.mk ("A") ("a") none, Participant.mk ("B") ("b") none,
     Participant.mk ("C") ("c") none]
    [] ("BGN")

/-- Witness for C1 at `total = 100`, three participants. -/
theorem equal_split_sum_invariant_witness :
    ∃ gr e, addExpenseEqual gW ("dinner") 100 ("a")
        (some [("a"), ("b"), ("c")]) ("BGN") none = Except.ok (gr, e) ∧
      (e.splits.map ExpenseSplit.amount).sum = 100 := by
  obtain ⟨gr, e, h1, _, h3, _⟩ :=
    equal_split_sum_invariant gW ("dinner") 100 ("a") [("a"), ("b"), ("c")]
      ("BGN") none (by decide) (by with_unfolding_all decide) (by norm_num)
  exact ⟨gr, e, h1, h3⟩

/-- The keys of a balance table. -/
def keysOf (bal : List (String × ℚ)) : List String := bal.map Prod.fst

/-- All ids referenced by an expense lie in `pids`. -/
def refsOK (pids : List String) (e : Expense) : Prop :=
  e.paid_by ∈ pids ∧ ∀ s ∈ e.splits, s.participant_id ∈ pids

/-- Every expense of the group references only group participants. -/
def validRefs (g : ExpenseGroup) : Prop :=
  ∀ e ∈ g.expenses, refsOK g.pids e

theorem lookupUpd_isSome_iff (bal : List (String × ℚ)) (k : String) (f : ℚ → ℚ) :
    (∃ b, lookupUpd bal k f = some b) ↔ k ∈ keysOf bal := by
  induction bal with
  | nil => simp [lookupUpd, keysOf]
  | cons kv rest ih =>
    by_cases h : kv.1 = k
    · simp [lookupUpd, h, keysOf]
    · simp only [lookupUpd, keysOf, List.map_cons, List.mem_cons]
      rw [if_neg h]
      constructor
      · rintro ⟨b, hb⟩
        rcases Option.map_eq_some'.mp hb with ⟨r, hr, _⟩
        exact Or.inr (ih.mp ⟨r, hr⟩)
      · rintro (h1 | h2)
        · exact absurd h1.symm h
        · obtain ⟨b, hb⟩ := ih.mpr h2
          exact ⟨(kv.1, kv.2) :: b, by rw [hb]; rfl⟩

theorem lookupUpd_keys (bal : List (String × ℚ)) (k : String) (f : ℚ → ℚ)
    (b : List (String × ℚ)) (h : lookupUpd bal k f = some b) :
    keysOf b = keysOf bal := by
  induction bal generalizing b with
  | nil => simp [lookupUpd] at h
  | cons kv rest ih =>
    by_cases hk : kv.1 = k
    · simp [lookupUpd, hk] at h
      subst h
      simp [keysOf, hk]
    · simp only [lookupUpd] at h
      rw [if_neg hk] at h
      rcases Option.map_eq_some'.mp h with ⟨r, hr, hb⟩
      subst hb
      simp only [keysOf, List.map_cons]
      rw [show List.map Prod.fst r = List.map Prod.fst rest from ih r hr]

theorem debitSplits_ok_keys (ss : List ExpenseSplit) :
    ∀ (bal b : List (String × ℚ)), debitSplits bal ss = Except.ok b →
      keysOf b = keysOf bal := by
  induction ss with
  | nil =>
    intro bal b h
    simp [debitSplits] at h
    subst h
    rfl
  | cons s rest ih =>
    intro bal b h
    simp only [debitSplits] at h
    cases hu : lookupUpd bal s.participant_id (fun v => v - s.amount) with
    | none => rw [hu] at h; exact absurd h (by simp)
    | some b1 =>
      rw [hu] at h
      rw [ih b1 b h, lookupUpd_keys bal _ _ b1 hu]

theorem debitSplits_ok_iff (ss : List ExpenseSplit) :
    ∀ (bal : List (String × ℚ)),
      (∃ b, debitSplits bal ss = Except.ok b) ↔
        ∀ s ∈ ss, s.participant_id ∈ keysOf bal := by
  induction ss with
  | nil =>
    intro bal
    simp [debitSplits]
  | cons s rest ih =>
    intro bal
    simp only [debitSplits, List.mem_cons]
    cases hu : lookupUpd bal s.participant_id (fun v => v - s.amount) with
    | none =>
      have hk : s.participant_id ∉ keysOf bal := by
        intro hmem
        obtain ⟨b, hb⟩ := (lookupUpd_isSome_iff bal s.participant_id
          (fun v => v - s.amount)).mpr hmem
        rw [hu] at hb
        exact absurd hb (by simp)
      constructor
      · rintro ⟨b, hb⟩
        exact absurd hb (by simp)
      · intro hall
        exact absurd (hall s (Or.inl rfl)) hk
    | some b1 =>
      have hk : s.participant_id ∈ keysOf bal :=
        (lookupUpd_isSome_iff bal s.participant_id (fun v => v - s.amount)).mp
          ⟨b1, hu⟩
      have hkeys : keysOf b1 = keysOf bal := lookupUpd_keys bal _ _ b1 hu
      constructor
      · rintro ⟨b, hb⟩
        intro x hx
        rcases hx with hx | hx
        · subst hx; exact hk
        · have := (ih b1).mp ⟨b, hb⟩
          rw [← hkeys]
          exact this x hx
      · intro hall
        obtain ⟨b, hb⟩ := (ih b1).mpr (fun x hx => by
          rw [hkeys]
          exact hall x (Or.inr hx))
        exact ⟨b, hb⟩

theorem processExpense_ok_keys (bal b : List (String × ℚ)) (e : Expense)
    (h : processExpense bal e = Except.ok b) : keysOf b = keysOf bal := by
  simp only [processExpense] at h
  cases hu : lookupUpd bal e.paid_by (fun v => v + e.total_amount) with
  | none => rw [hu] at h; exact absurd h (by simp)
  | some b1 =>
    rw [hu] at h
    rw [debitSplits_ok_keys e.splits b1 b h, lookupUpd_keys bal _ _ b1 hu]

theorem processExpense_ok_iff (bal : List (String × ℚ)) (e : Expense) :
    (∃ b, processExpense bal e = Except.ok b) ↔ refsOK (keysOf bal) e := by
  simp only [processExpense, refsOK]
  cases hu : lookupUpd bal e.paid_by (fun v => v + e.total_amount) with
  | none =>
    have hk : e.paid_by ∉ keysOf bal := by
      intro hmem
      obtain ⟨b, hb⟩ := (lookupUpd_isSome_iff bal e.paid_by
        (fun v => v + e.total_amount)).mpr hmem
      rw [hu] at hb
      exact absurd hb (by simp)
    constructor
    · rintro ⟨b, hb⟩
      exact absurd hb (by simp)
    · rintro ⟨h1, _⟩
      exact absurd h1 hk
  | some b1 =>
    have hk : e.paid_by ∈ keysOf bal :=
      (lookupUpd_isSome_iff bal e.paid_by (fun v => v + e.total_amount)).mp
        ⟨b1, hu⟩
    have hkeys : keysOf b1 = keysOf bal := lookupUpd_keys bal _ _ b1 hu
    rw [show (∃ b, debitSplits b1 e.splits = Except.ok b) ↔
        (∀ s ∈ e.splits, s.participant_id ∈ keysOf b1) from
      debitSplits_ok_iff e.splits b1]
    rw [hkeys]
    constructor
    · intro h2
      exact ⟨hk, h2⟩
    · rintro ⟨_, h2⟩
      exact h2

theorem processExpenses_ok_iff (es : List Expense) :
    ∀ (bal : List (String × ℚ)),
      (∃ b, processExpenses bal es = Except.ok b) ↔
        ∀ e ∈ es, refsOK (keysOf bal) e := by
  induction es with
  | nil =>
    intro bal
    simp [processExpenses]
  | cons e rest ih =>
    intro bal
    simp only [processExpenses, List.mem_cons]
    cases hp : processExpense bal e with
    | error m =>
      have hne : ¬ refsOK (keysOf bal) e := by
        intro hok
        obtain ⟨b, hb⟩ := (processExpense_ok_iff bal e).mpr hok
        rw [hp] at hb
        exact absurd hb (by simp)
      constructor
      · rintro ⟨b, hb⟩
        exact absurd hb (by simp)
      · intro hall
        exact absurd (hall e (Or.inl rfl)) hne
    | ok b1 =>
      have hok : refsOK (keysOf bal) e :=
        (processExpense_ok_iff bal e).mp ⟨b1, hp⟩
      have hkeys : keysOf b1 = keysOf bal := processExpense_ok_keys bal b1 e hp
      constructor
      · rintro ⟨b, hb⟩
        intro x hx
        rcases hx with hx | hx
        · subst hx; exact hok
        · have := (ih b1).mp ⟨b, hb⟩
          rw [← hkeys]
          exact this x hx
      · intro hall
        obtain ⟨b, hb⟩ := (ih b1).mpr (fun x hx => by
          rw [hkeys]
          exact hall x (Or.inr hx))
        exact ⟨b, hb⟩

theorem keysOf_init (g : ExpenseGroup) :
    keysOf (g.participants.map (fun p => (p.id, (0 : ℚ)))) = g.pids := by
  simp [keysOf, ExpenseGroup.pids, List.map_map]

/-- Claim C9: `get_balances` succeeds exactly when every id referenced by
every expense (payer and split participants) belongs to a group
participant; otherwise it raises a `KeyError`. -/
theorem getBalances_ok_iff_validRefs (g : ExpenseGroup) :
    (∃ bal, getBalances g = Except.ok bal) ↔ validRefs g := by
  simp only [getBalances]
  cases hp : processExpenses (g.participants.map (fun p => (p.id, (0 : ℚ))))
      g.expenses with
  | error m =>
    constructor
    · rintro ⟨bal, hb⟩
      exact absurd hb (by simp)
    · intro hv
      obtain ⟨b, hb⟩ := (processExpenses_ok_iff g.expenses _).mpr (by
        rw [keysOf_init]
        exact hv)
      rw [hp] at hb
      exact absurd hb (by simp)
  | ok b =>
    constructor
    · intro _
      have : ∀ e ∈ g.expenses,
          refsOK (keysOf (g.participants.map (fun p => (p.id, (0 : ℚ))))) e :=
        (processExpenses_ok_iff g.expenses _).mp ⟨b, hp⟩
      rw [keysOf_init] at this
      exact this
    · intro _
      exact ⟨_, rfl⟩

theorem processExpenses_append (l1 l2 : List Expense) :
    ∀ (bal : List (String × ℚ)),
      processExpenses bal (l1 ++ l2) =
        (match processExpenses bal l1 with
         | Except.error m => Except.error m
         | Except.ok b => processExpenses b l2) := by
  induction l1 with
  | nil =>
    intro bal
    simp [processExpenses]
  | cons e rest ih =>
    intro bal
    simp only [List.cons_append, processExpenses]
    cases hp : processExpense bal e with
    | error m => rfl
    | ok b1 => exact ih b1

/-- Compute whether an allocator call succeeded (returned an Expense). -/
def allocOk (r : Except String (ExpenseGroup × Expense)) : Bool :=
  match r with
  | Except.ok _ => true
  | Except.error _ => false

/-- The `paid_by` of the expense an allocator call appended (`""` on error). -/
def allocPaidBy (r : Except String (ExpenseGroup × Expense)) : String :=
  match r with
  | Except.ok p => p.2.paid_by
  | Except.error _ => ""

/-- Counterexample to claim C8: an Equal allocation whose payer id `ghost`
is not a participant of the group succeeds and appends the expense with the
dangling reference, instead of failing at allocation time. -/
theorem allocator_unknown_id_cex :
    allocOk (addExpenseEqual gW ("taxi") 10 ("ghost") (some [("a")])
      ("BGN") none) = true ∧
    allocPaidBy (addExpenseEqual gW ("taxi") 10 ("ghost") (some [("a")])
      ("BGN") none) = ("ghost") ∧
    ("ghost") ∉ gW.pids := by
  refine ⟨?_, ?_, ?_⟩
  · with_unfolding_all decide
  · with_unfolding_all decide
  · with_unfolding_all decide

theorem map_fst_zip_eq : ∀ (l1 : List String) (l2 : List ℚ),
    l1.length = l2.length → (l1.zip l2).map Prod.fst = l1
  | [], [], _ => rfl
  | _ :: t1, _ :: t2, h => by
    simp only [List.zip_cons_cons, List.map_cons, List.cons.injEq, true_and]
    exact map_fst_zip_eq t1 t2 (by simpa using h)

theorem zip_mk_map_pid (pids : List String) (amounts : List ℚ)
    (h : amounts.length = pids.length) :
    ((pids.zip amounts).map
      (fun pa => ExpenseSplit.mk pa.1 pa.2 none none)).map
      ExpenseSplit.participant_id = pids := by
  rw [List.map_map]
  exact map_fst_zip_eq pids amounts h.symm

/-- Appending an expense with a dangling payer or split participant id
makes `get_balances` raise a `KeyError`. -/
theorem append_dangling_error (g : ExpenseGroup) (e : Expense)
    (hbad : ¬ refsOK g.pids e) :
    ∃ m, getBalances { g with expenses := g.expenses ++ [e] } =
      Except.error m := by
  set gr : ExpenseGroup := { g with expenses := g.expenses ++ [e] } with hgr
  have hnv : ¬ validRefs gr := by
    intro hv
    have hmem : e ∈ gr.expenses := by
      rw [hgr]
      simp
    exact hbad (hv e hmem)
  cases hres : getBalances gr with
  | error m => exact ⟨m, rfl⟩
  | ok bal =>
    exact absurd ((getBalances_ok_iff_validRefs gr).mp ⟨bal, hres⟩) hnv

/-- Claim C8 (amended): none of the four allocators validates participant
ids: each one succeeds whenever its own non-membership checks pass (a
non-empty list for Equal, the `np.isclose` sum checks for Percentage and
Custom, nothing at all for Shares), appending the Expense with payer and
split participant ids taken verbatim from the inputs, whether or not they
exist in the group; and any appended expense referencing an unknown id (as
payer or as a split participant) makes `get_balances` on the resulting
group raise a `KeyError`. -/
theorem allocator_accepts_unknown_ids
    (g : ExpenseGroup) (desc : String) (t : ℚ) (paid : String)
    (pids : List String) (pcts : List (String × ℚ)) (shs : List (String × ℤ))
    (amts : List (String × ℚ)) (cur : String) (cat : Option String) :
    (pids ≠ [] →
      ∃ gr e, addExpenseEqual g desc t paid (some pids) cur cat =
          Except.ok (gr, e) ∧
        gr = { g with expenses := g.expenses ++ [e] } ∧ e.paid_by = paid ∧
        e.splits.map ExpenseSplit.participant_id = pids) ∧
    (npIsclose ((pcts.map Prod.snd).sum) 100 = true →
      ∃ gr e, addExpensePercentage g desc t paid pcts cur cat =
          Except.ok (gr, e) ∧
        gr = { g with expenses := g.expenses ++ [e] } ∧ e.paid_by = paid ∧
        e.splits.map ExpenseSplit.participant_id = pcts.map Prod.fst) ∧
    (∃ gr e, addExpenseShares g desc t paid shs cur cat =
        Except.ok (gr, e) ∧
      gr = { g with expenses := g.expenses ++ [e] } ∧ e.paid_by = paid ∧
      e.splits.map ExpenseSplit.participant_id = shs.map Prod.fst) ∧
    (npIsclose ((amts.map Prod.snd).sum) t = true →
      ∃ gr e, addExpenseCustom g desc t paid amts cur cat =
          Except.ok (gr, e) ∧
        gr = { g with expenses := g.expenses ++ [e] } ∧ e.paid_by = paid ∧
        e.splits.map ExpenseSplit.participant_id = amts.map Prod.fst) ∧
    (∀ e : Expense, ¬ refsOK g.pids e →
      ∃ m, getBalances { g with expenses := g.expenses ++ [e] } =
        Except.error m) := by
  refine ⟨?_, ?_, ?_, ?_, fun e hbad => append_dangling_error g e hbad⟩
  · intro hn
    have hn0 : pids.length ≠ 0 := by
      simpa [List.length_eq_zero] using hn
    unfold addExpenseEqual
    simp only [Option.getD_some]
    rw [if_neg hn0]
    refine ⟨_, _, rfl, rfl, rfl, ?_⟩
    apply zip_mk_map_pid
    by_cases hr : t - (pids.length : ℚ) * round2 (t / (pids.length : ℚ)) ≠ 0
    · simp [hr]
    · simp [hr]
  · intro hp
    unfold addExpensePercentage
    rw [if_pos hp]
    refine ⟨_, _, rfl, rfl, rfl, ?_⟩
    rw [List.map_map]
    rfl
  · unfold addExpenseShares
    refine ⟨_, _, rfl, rfl, rfl, ?_⟩
    rw [List.map_map]
    rfl
  · intro hp
    unfold addExpenseCustom
    rw [if_pos hp]
    refine ⟨_, _, rfl, rfl, rfl, ?_⟩
    rw [List.map_map]
    rfl

/-- Witness for the amended C8: an Equal allocation with the unknown payer
`ghost` and a Custom allocation with the unknown split participant `zz`
both succeed, and `get_balances` then fails with a `KeyError` on each
resulting group. -/
theorem allocator_accepts_unknown_ids_witness :
    (∃ gr e m, addExpenseEqual gW ("taxi") 10 ("ghost") (some [("a")])
        ("BGN") none = Except.ok (gr, e) ∧
      getBalances gr = Except.error m) ∧
    (∃ gr e m, addExpenseCustom gW ("gift") 10 ("a") [(("zz"), 10)]
        ("BGN") none = Except.ok (gr, e) ∧
      getBalances gr = Except.error m) := by
  constructor
  · obtain ⟨gr, e, hok, hgr, hpaid, _⟩ :=
      (allocator_accepts_unknown_ids gW ("taxi") 10 ("ghost") [("a")] []
        [] [] ("BGN") none).1 (by decide)
    have hbad : ¬ refsOK gW.pids e := by
      intro hok2
      have := hok2.1
      rw [hpaid] at this
      exact absurd this (by decide)
    obtain ⟨m, hm⟩ := append_dangling_error gW e hbad
    refine ⟨gr, e, m, hok, ?_⟩
    rw [hgr]
    exact hm
  · obtain ⟨gr, e, hok, hgr, _, hsplits⟩ :=
      (allocator_accepts_unknown_ids gW ("gift") 10 ("a") [("a")] []
        [] [(("zz"), 10)] ("BGN") none).2.2.2.1 (by with_unfolding_all decide)
    have hzz : ("zz") ∈ e.splits.map ExpenseSplit.participant_id := by
      rw [hsplits]
      decide
    obtain ⟨sp, hsp, hspid⟩ := List.mem_map.mp hzz
    have hbad : ¬ refsOK gW.pids e := by
      intro hok2
      have := hok2.2 sp hsp
      rw [hspid] at this
      exact absurd this (by decide)
    obtain ⟨m, hm⟩ := append_dangling_error gW e hbad
    refine ⟨gr, e, m, hok, ?_⟩
    rw [hgr]
    exact hm

/-- The net contribution of one expense to a participant's balance: the
payer is credited the full amount, every split of that participant is
debited. -/
def contrib (e : Expense) (pid : String) : ℚ :=
  (if e.paid_by = pid then e.total_amount else 0) -
    ((e.splits.filter (fun s => decide (s.participant_id = pid))).map
      ExpenseSplit.amount).sum

/-- A participant's unrounded net balance over an expense list. -/
def net (es : List Expense) (pid : String) : ℚ :=
  (es.map (fun e => contrib e pid)).sum

theorem lookupUpd_eq_map (bal : List (String × ℚ)) (k : String) (f : ℚ → ℚ)
    (hnd : (keysOf bal).Nodup) (hk : k ∈ keysOf bal) :
    lookupUpd bal k f =
      some (bal.map (fun kv => if kv.1 = k then (kv.1, f kv.2) else kv)) := by
  induction bal with
  | nil => simp [keysOf] at hk
  | cons kv rest ih =>
    simp only [keysOf, List.map_cons, List.nodup_cons] at hnd
    by_cases h : kv.1 = k
    · have hrest : rest.map (fun kv => if kv.1 = k then (kv.1, f kv.2) else kv)
          = rest := by
        conv_rhs => rw [← List.map_id rest]
        apply List.map_congr_left
        intro x hx
        have hxk : x.1 ≠ k := by
          intro hxk
          exact hnd.1 (by
            rw [h, ← hxk]
            exact List.mem_map_of_mem Prod.fst hx)
        simp [hxk]
      have hstep : lookupUpd (kv :: rest) k f = some ((kv.1, f kv.2) :: rest) := by
        simp [lookupUpd, h]
      rw [hstep, List.map_cons, if_pos h, hrest]
    · have hk2 : k ∈ keysOf rest := by
        simp only [keysOf, List.map_cons, List.mem_cons] at hk
        rcases hk with hk | hk
        · exact absurd hk.symm h
        · exact hk
      have hstep : lookupUpd (kv :: rest) k f
          = (lookupUpd rest k f).map (fun r => (kv.1, kv.2) :: r) := by
        simp [lookupUpd, h]
      rw [hstep, ih hnd.2 hk2]
      simp only [Option.map_some, List.map_cons]
      rw [if_neg h]
      simp

theorem debitSplits_eq_map (ss : List ExpenseSplit) :
    ∀ (bal : List (String × ℚ)), (keysOf bal).Nodup →
      (∀ s ∈ ss, s.participant_id ∈ keysOf bal) →
      debitSplits bal ss = Except.ok (bal.map (fun kv => (kv.1, kv.2 -
        ((ss.filter (fun s => decide (s.participant_id = kv.1))).map
          ExpenseSplit.amount).sum))) := by
  induction ss with
  | nil =>
    intro bal _ _
    simp [debitSplits, List.filter_nil]
  | cons s rest ih =>
    intro bal hnd hall
    simp only [debitSplits]
    rw [lookupUpd_eq_map bal s.participant_id _ hnd
      (hall s (List.mem_cons_self s rest))]
    show debitSplits (bal.map (fun kv => if kv.1 = s.participant_id
      then (kv.1, kv.2 - s.amount) else kv)) rest = _
    set bal1 := bal.map (fun kv => if kv.1 = s.participant_id
      then (kv.1, kv.2 - s.amount) else kv) with hbal1
    have hkeys1 : keysOf bal1 = keysOf bal := by
      rw [hbal1]
      simp only [keysOf, List.map_map]
      apply List.map_congr_left
      intro x _
      by_cases hx : x.1 = s.participant_id
      · simp [hx]
      · simp [hx]
    rw [ih bal1 (by rw [hkeys1]; exact hnd) (fun x hx => by
      rw [hkeys1]
      exact hall x (List.mem_cons_of_mem s hx))]
    rw [hbal1, List.map_map]
    congr 1
    apply List.map_congr_left
    intro kv _
    by_cases hx : kv.1 = s.participant_id
    · simp only [Function.comp, hx, if_pos, List.filter_cons, decide_eq_true_eq,
        if_true, List.map_cons, List.sum_cons, Prod.mk.injEq]
      refine ⟨trivial, by ring⟩
    · simp only [Function.comp, if_neg hx, List.filter_cons, decide_eq_true_eq]
      rw [if_neg (fun hc => hx hc.symm)]

theorem processExpense_eq_map (bal : List (String × ℚ)) (e : Expense)
    (hnd : (keysOf bal).Nodup) (hok : refsOK (keysOf bal) e) :
    processExpense bal e =
      Except.ok (bal.map (fun kv => (kv.1, kv.2 + contrib e kv.1))) := by
  simp only [processExpense]
  rw [lookupUpd_eq_map bal e.paid_by _ hnd hok.1]
  show debitSplits (bal.map (fun kv => if kv.1 = e.paid_by
    then (kv.1, kv.2 + e.total_amount) else kv)) e.splits = _
  set bal1 := bal.map (fun kv => if kv.1 = e.paid_by
    then (kv.1, kv.2 + e.total_amount) else kv) with hbal1
  have hkeys1 : keysOf bal1 = keysOf bal := by
    rw [hbal1]
    simp only [keysOf, List.map_map]
    apply List.map_congr_left
    intro x _
    by_cases hx : x.1 = e.paid_by
    · simp [hx]
    · simp [hx]
  rw [debitSplits_eq_map e.splits bal1 (by rw [hkeys1]; exact hnd)
    (fun x hx => by
      rw [hkeys1]
      exact hok.2 x hx)]
  rw [hbal1, List.map_map]
  congr 1
  apply List.map_congr_left
  intro kv _
  by_cases hx : kv.1 = e.paid_by
  · simp only [Function.comp, if_pos hx, contrib, Prod.mk.injEq]
    rw [if_pos hx.symm]
    exact ⟨trivial, by ring⟩
  · simp only [Function.comp, if_neg hx, contrib, Prod.mk.injEq]
    rw [if_neg (fun hc => hx hc.symm)]
    exact ⟨trivial, by ring⟩

theorem net_nil (pid : String) : net [] pid = 0 := by
  simp [net]

theorem net_cons (e : Expense) (rest : List Expense) (pid : String) :
    net (e :: rest) pid = contrib e pid + net rest pid := by
  simp [net]

theorem processExpenses_eq_map (es : List Expense) :
    ∀ (bal : List (String × ℚ)), (keysOf bal).Nodup →
      (∀ e ∈ es, refsOK (keysOf bal) e) →
      processExpenses bal es =
        Except.ok (bal.map (fun kv => (kv.1, kv.2 + net es kv.1))) := by
  induction es with
  | nil =>
    intro bal _ _
    simp [processExpenses, net_nil]
  | cons e rest ih =>
    intro bal hnd hall
    simp only [processExpenses]
    rw [processExpense_eq_map bal e hnd (hall e (List.mem_cons_self e rest))]
    show processExpenses (bal.map (fun kv => (kv.1, kv.2 + contrib e kv.1)))
      rest = _
    set bal1 := bal.map (fun kv => (kv.1, kv.2 + contrib e kv.1)) with hbal1
    have hkeys1 : keysOf bal1 = keysOf bal := by
      rw [hbal1]
      simp [keysOf, List.map_map]
    rw [ih bal1 (by rw [hkeys1]; exact hnd) (fun x hx => by
      rw [hkeys1]
      exact hall x (List.mem_cons_of_mem e hx))]
    rw [hbal1, List.map_map]
    congr 1
    apply List.map_congr_left
    intro kv _
    simp only [Function.comp, net_cons, Prod.mk.injEq]
    exact ⟨trivial, by ring⟩

theorem lookupVal_mapped (ps : List Participant) (v : String → ℚ)
    (pid : String) (hp : pid ∈ ps.map Participant.id) :
    lookupVal (ps.map (fun q => (q.id, v q.id))) pid = v pid := by
  induction ps with
  | nil => simp at hp
  | cons q rest ih =>
    simp only [List.map_cons, lookupVal]
    by_cases h : q.id = pid
    · rw [if_pos h, h]
    · rw [if_neg h]
      simp only [List.map_cons, List.mem_cons] at hp
      rcases hp with hp | hp
      · exact absurd hp.symm h
      · exact ih hp

/-- `get_balances` on a group with unique participant ids and no dangling
references returns, in participant order, each participant's rounded net
balance. -/
theorem getBalances_eq (g : ExpenseGroup) (hnd : g.pids.Nodup)
    (hv : validRefs g) :
    getBalances g = Except.ok (g.participants.map
      (fun p => (p.id, p.name, round2 (net g.expenses p.id)))) := by
  simp only [getBalances]
  have hkeys : keysOf (g.participants.map (fun p => (p.id, (0 : ℚ))))
      = g.pids := keysOf_init g
  rw [processExpenses_eq_map g.expenses _ (by rw [hkeys]; exact hnd)
    (fun e he => by
      rw [hkeys]
      exact hv e he)]
  show Except.ok _ = _
  congr 1
  have hfuse : ((g.participants.map (fun p => (p.id, (0 : ℚ)))).map
      (fun kv => (kv.1, kv.2 + net g.expenses kv.1))) =
      g.participants.map (fun q => (q.id, (0 : ℚ) + net g.expenses q.id)) := by
    rw [List.map_map]
    rfl
  rw [hfuse]
  apply List.map_congr_left
  intro p hp
  rw [lookupVal_mapped g.participants
    (fun x => (0 : ℚ) + net g.expenses x) p.id
    (List.mem_map_of_mem Participant.id hp)]
  rw [zero_add]

/-- Claim C6: permuting the group's expense sequence does not change any
participant's balance (expense processing is a commutative fold). -/
theorem balances_expense_order_invariant (g : ExpenseGroup)
    (es2 : List Expense) (hperm : es2.Perm g.expenses)
    (hnd : g.pids.Nodup) (hv : validRefs g) :
    getBalances { g with expenses := es2 } = getBalances g := by
  have hv2 : validRefs { g with expenses := es2 } := by
    intro e he
    exact hv e (hperm.mem_iff.mp he)
  rw [getBalances_eq { g with expenses := es2 } hnd hv2,
    getBalances_eq g hnd hv]
  show Except.ok _ = _
  congr 1
  apply List.map_congr_left
  intro p _
  have hnet : net es2 p.id = net g.expenses p.id :=
    (hperm.map (fun e => contrib e p.id)).sum_eq
  rw [show ({ g with expenses := es2 } : ExpenseGroup).expenses = es2 from rfl,
    hnet]

/-- First concrete expense for the C6 witness. -/
def e6a : Expense :=
  Expense.mk ("lunch") 30 ("a") ("BGN") SplitMethod.equal
    [ExpenseSplit.mk ("a") 10 none none, ExpenseSplit.mk ("b") 10 none none,
     ExpenseSplit.mk ("c") 10 none none] none

/-- Second concrete expense for the C6 witness. -/
def e6b : Expense :=
  Expense.mk ("taxi") 12 ("b") ("BGN") SplitMethod.equal
    [ExpenseSplit.mk ("a") 4 none none, ExpenseSplit.mk ("b") 4 none none,
     ExpenseSplit.mk ("c") 4 none none] none

/-- A concrete two-expense group for the C6 witness. -/
def g6 : ExpenseGroup :=
  ExpenseGroup.mk ("w")
    [Participant.mk ("A") ("a") none, Participant.mk ("B") ("b") none,
     Participant.mk ("C") ("c") none]
    [e6a, e6b] ("BGN")

/-- Witness for C6: swapping the two expenses of `g6` leaves the balance
table unchanged. -/
theorem balances_expense_order_invariant_witness :
    getBalances { g6 with expenses := [e6b, e6a] } = getBalances g6 :=
  balances_expense_order_invariant g6 [e6b, e6a]
    (by
      show ([e6b, e6a]).Perm g6.expenses
      exact List.Perm.swap e6a e6b [])
    (by decide)
    (by
      unfold validRefs refsOK
      with_unfolding_all decide)

theorem sum_map_add {α : Type} (l : List α) (f g : α → ℚ) :
    (l.map (fun x => f x + g x)).sum = (l.map f).sum + (l.map g).sum := by
  induction l with
  | nil => simp
  | cons a t ih =>
    simp only [List.map_cons, List.sum_cons, ih]
    ring

theorem sum_map_sub {α : Type} (l : List α) (f g : α → ℚ) :
    (l.map (fun x => f x - g x)).sum = (l.map f).sum - (l.map g).sum := by
  induction l with
  | nil => simp
  | cons a t ih =>
    simp only [List.map_cons, List.sum_cons, ih]
    ring

theorem sum_map_sum_comm {α β : Type} (l1 : List α) (l2 : List β)
    (f : α → β → ℚ) :
    (l1.map (fun a => (l2.map (f a)).sum)).sum =
      (l2.map (fun b => (l1.map (fun a => f a b)).sum)).sum := by
  induction l1 with
  | nil => simp
  | cons a t ih =>
    simp only [List.map_cons, List.sum_cons]
    rw [ih]
    rw [show (l2.map (fun b => f a b + (t.map (fun a => f a b)).sum)) =
        l2.map (fun b => f a b + (t.map (fun a2 => f a2 b)).sum) from rfl]
    rw [sum_map_add l2 (fun b => f a b)
      (fun b => (t.map (fun a2 => f a2 b)).sum)]

theorem sum_ite_key (ids : List String) (k : String) (t : ℚ)
    (hnd : ids.Nodup) (hk : k ∈ ids) :
    (ids.map (fun x => if k = x then t else 0)).sum = t := by
  induction ids with
  | nil => simp at hk
  | cons a rest ih =>
    simp only [List.nodup_cons] at hnd
    by_cases h : k = a
    · simp only [List.map_cons, List.sum_cons, if_pos h]
      have hzero : (rest.map (fun x => if k = x then t else 0)).sum = 0 := by
        apply List.sum_eq_zero
        intro y hy
        rcases List.mem_map.mp hy with ⟨x, hx, rfl⟩
        rw [if_neg (by
          intro hc
          have hax : a = x := h.symm.trans hc
          exact hnd.1 (hax ▸ hx))]
      rw [hzero, add_zero]
    · simp only [List.map_cons, List.sum_cons, if_neg h, zero_add]
      rcases List.mem_cons.mp hk with hk1 | hk1
      · exact absurd hk1 h
      · exact ih hnd.2 hk1

theorem filter_map_sum_ite (ss : List ExpenseSplit) (x : String) :
    ((ss.filter (fun s => decide (s.participant_id = x))).map
      ExpenseSplit.amount).sum =
    (ss.map (fun s => if s.participant_id = x then s.amount else 0)).sum := by
  induction ss with
  | nil => simp
  | cons s rest ih =>
    by_cases h : s.participant_id = x
    · simp [List.filter_cons, h, ih]
    · simp [List.filter_cons, h, ih]

theorem sum_contrib_over_ids (ids : List String) (e : Expense)
    (hnd : ids.Nodup) (hok : refsOK ids e) :
    (ids.map (fun x => contrib e x)).sum =
      e.total_amount - (e.splits.map ExpenseSplit.amount).sum := by
  simp only [contrib]
  rw [sum_map_sub ids (fun x => if e.paid_by = x then e.total_amount else 0)
    (fun x => ((e.splits.filter (fun s => decide (s.participant_id = x))).map
      ExpenseSplit.amount).sum)]
  congr 1
  · exact sum_ite_key ids e.paid_by e.total_amount hnd hok.1
  · rw [List.map_congr_left (fun x _ => filter_map_sum_ite e.splits x)]
    rw [sum_map_sum_comm ids e.splits
      (fun x s => if s.participant_id = x then s.amount else 0)]
    rw [List.map_congr_left (fun s hs =>
      sum_ite_key ids s.participant_id s.amount hnd (hok.2 s hs))]

theorem Cent.listSum (l : List ℚ) (h : ∀ x ∈ l, Cent x) : Cent l.sum := by
  induction l with
  | nil => simpa using Cent.zero
  | cons a t ih =>
    simp only [List.sum_cons]
    exact (h a (List.mem_cons_self a t)).add
      (ih (fun x hx => h x (List.mem_cons_of_mem a hx)))

theorem Cent_contrib (e : Expense) (pid : String)
    (ht : Cent e.total_amount) (hs : ∀ s ∈ e.splits, Cent s.amount) :
    Cent (contrib e pid) := by
  unfold contrib
  apply Cent.sub
  · by_cases h : e.paid_by = pid
    · rw [if_pos h]; exact ht
    · rw [if_neg h]; exact Cent.zero
  · apply Cent.listSum
    intro x hx
    rcases List.mem_map.mp hx with ⟨s, hsmem, rfl⟩
    exact hs s (List.mem_of_mem_filter hsmem)

/-- Claim C2 (amended): when every expense of the group has a 2-decimal
total and 2-decimal split amounts that sum exactly to the total (as the
Equal allocator guarantees for 2-decimal totals), the balances returned by
`get_balances` sum to exactly zero. -/
theorem balance_conservation_exact (g : ExpenseGroup)
    (hnd : g.pids.Nodup) (hv : validRefs g)
    (hq : ∀ e ∈ g.expenses, Cent e.total_amount ∧
      (∀ s ∈ e.splits, Cent s.amount) ∧
      (e.splits.map ExpenseSplit.amount).sum = e.total_amount) :
    ∃ bal, getBalances g = Except.ok bal ∧
      (bal.map (fun r => r.2.2)).sum = 0 := by
  refine ⟨_, getBalances_eq g hnd hv, ?_⟩
  rw [List.map_map]
  show (g.participants.map (fun p => round2 (net g.expenses p.id))).sum = 0
  have hcent : ∀ p ∈ g.participants,
      round2 (net g.expenses p.id) = net g.expenses p.id := by
    intro p _
    apply round2_cent
    apply Cent.listSum
    intro x hx
    rcases List.mem_map.mp hx with ⟨e, he, rfl⟩
    exact Cent_contrib e p.id (hq e he).1 (hq e he).2.1
  rw [List.map_congr_left hcent]
  have hids : g.participants.map (fun p => net g.expenses p.id) =
      g.pids.map (fun x => net g.expenses x) := by
    simp [ExpenseGroup.pids, List.map_map]
  rw [hids]
  unfold net
  rw [sum_map_sum_comm g.pids g.expenses (fun x e => contrib e x)]
  rw [List.map_congr_left (fun e he => by
    rw [sum_contrib_over_ids g.pids e hnd (hv e he), (hq e he).2.2, sub_self])]
  simp

/-- Witness for the amended C2 on the concrete two-expense group `g6`. -/
theorem balance_conservation_exact_witness :
    ∃ bal, getBalances g6 = Except.ok bal ∧
      (bal.map (fun r => r.2.2)).sum = 0 :=
  balance_conservation_exact g6 (by decide)
    (by
      unfold validRefs refsOK
      with_unfolding_all decide)
    (by
      have h1 : ∀ s ∈ e6a.splits, (100 * s.amount).den = 1 := by
        with_unfolding_all decide
      have h2 : ∀ s ∈ e6b.splits, (100 * s.amount).den = 1 := by
        with_unfolding_all decide
      intro e he
      have he2 : e ∈ [e6a, e6b] := he
      rcases List.mem_cons.mp he2 with h | h
      · subst h
        exact ⟨(cent_iff_den _).mpr (by with_unfolding_all decide),
          fun s hs => (cent_iff_den _).mpr (h1 s hs),
          (qeqB_iff _ _).mp (by with_unfolding_all decide)⟩
      · have h3 : e = e6b := by simpa using h
        subst h3
        exact ⟨(cent_iff_den _).mpr (by with_unfolding_all decide),
          fun s hs => (cent_iff_den _).mpr (h2 s hs),
          (qeqB_iff _ _).mp (by with_unfolding_all decide)⟩)

/-- Extract the group from a successful allocator call (default on error). -/
def okGroupOf (r : Except String (ExpenseGroup × Expense))
    (d : ExpenseGroup) : ExpenseGroup :=
  match r with
  | Except.ok p => p.1
  | Except.error _ => d

/-- The sum of the balances returned by `get_balances` (0 on error). -/
def balSumOf (r : Except String (List (String × String × ℚ))) : ℚ :=
  match r with
  | Except.ok rows => (rows.map (fun t => t.2.2)).sum
  | Except.error _ => 0

/-- A four-participant group for the C2 counterexample. -/
def gP : ExpenseGroup :=
  ExpenseGroup.mk ("trip")
    [Participant.mk ("A") ("a") none, Participant.mk ("B") ("b") none,
     Participant.mk ("C") ("c") none, Participant.mk ("D") ("d") none]
    [] ("BGN")

/-- Counterexample to claim C2: a Percentage split of total 0.016 among four
participants at 25% each rounds every share to 0.00, so the payer keeps a
credit of 0.016 (rounded to 0.02) and the balances sum to 0.02, outside the
claimed 0.01 bound. -/
theorem balance_conservation_cex :
    allocOk (addExpensePercentage gP ("dinner") (2/125) ("a")
      [("a", 25), ("b", 25), ("c", 25), ("d", 25)] ("BGN") none) = true ∧
    ¬ (|balSumOf (getBalances (okGroupOf
        (addExpensePercentage gP ("dinner") (2/125) ("a")
          [("a", 25), ("b", 25), ("c", 25), ("d", 25)] ("BGN") none)
        gP))| ≤ 1/100) := by
  refine ⟨?_, ?_⟩
  · with_unfolding_all decide
  · with_unfolding_all decide

/-- Claim C5: `add_expense_percentage` fails exactly when the percentages do
not sum to 100 within `np.isclose` tolerance, `add_expense_custom` fails
exactly when the amounts do not sum to the total within the same tolerance,
and on success the only state change is the single appended Expense (no
partial state exists on failure). -/
theorem validation_error_iff
    (g : ExpenseGroup) (desc : String) (t : ℚ) (paid : String)
    (pcts amts : List (String × ℚ)) (cur : String) (cat : Option String) :
    (match addExpensePercentage g desc t paid pcts cur cat with
     | Except.error _ => npIsclose ((pcts.map Prod.snd).sum) 100 = false
     | Except.ok p => npIsclose ((pcts.map Prod.snd).sum) 100 = true ∧
         p.1 = { g with expenses := g.expenses ++ [p.2] }) ∧
    (match addExpenseCustom g desc t paid amts cur cat with
     | Except.error _ => npIsclose ((amts.map Prod.snd).sum) t = false
     | Except.ok p => npIsclose ((amts.map Prod.snd).sum) t = true ∧
         p.1 = { g with expenses := g.expenses ++ [p.2] }) := by
  constructor
  · by_cases h : npIsclose ((pcts.map Prod.snd).sum) 100 = true
    · unfold addExpensePercentage
      rw [if_pos h]
      exact ⟨h, rfl⟩
    · unfold addExpensePercentage
      rw [if_neg h]
      simpa using h
  · by_cases h : npIsclose ((amts.map Prod.snd).sum) t = true
    · unfold addExpenseCustom
      rw [if_pos h]
      exact ⟨h, rfl⟩
    · unfold addExpenseCustom
      rw [if_neg h]
      simpa using h

theorem getD_mem (l : List ℚ) (i : ℕ) (h : i < l.length) : l.getD i 0 ∈ l := by
  rw [List.getD_eq_getElem l 0 h]
  exact List.getElem_mem h

theorem getD_set_self (l : List ℚ) :
    ∀ (i : ℕ) (v : ℚ), i < l.length → (l.set i v).getD i 0 = v := by
  induction l with
  | nil => intro i v h; simp at h
  | cons x t ih =>
    intro i v h
    cases i with
    | zero => rfl
    | succ m =>
      simp only [List.set_cons_succ, List.getD_cons_succ]
      exact ih m v (by simpa using h)

theorem getD_set_other (l : List ℚ) :
    ∀ (i j : ℕ) (v : ℚ), i ≠ j → (l.set i v).getD j 0 = l.getD j 0 := by
  induction l with
  | nil => intro i j v _; simp [List.set]
  | cons x t ih =>
    intro i j v hij
    cases i with
    | zero =>
      cases j with
      | zero => exact absurd rfl hij
      | succ m => rfl
    | succ m =>
      cases j with
      | zero => rfl
      | succ k =>
        simp only [List.set_cons_succ, List.getD_cons_succ]
        exact ih m k v (by omega)

theorem sum_set (l : List ℚ) :
    ∀ (i : ℕ) (v : ℚ), i < l.length →
      (l.set i v).sum = l.sum - l.getD i 0 + v := by
  induction l with
  | nil => intro i v h; simp at h
  | cons x t ih =>
    intro i v h
    cases i with
    | zero =>
      simp only [List.set_cons_zero, List.sum_cons, List.getD_cons_zero]
      ring
    | succ m =>
      simp only [List.set_cons_succ, List.sum_cons, List.getD_cons_succ]
      rw [ih m v (by simpa using h)]
      ring

theorem countNZ_cons (x : ℚ) (t : List ℚ) :
    countNZ (x :: t) = (if x ≠ 0 then 1 else 0) + countNZ t := by
  simp only [countNZ, List.filter_cons]
  by_cases h : x = 0
  · simp [h]
  · simp [h]
    omega

theorem countNZ_set (l : List ℚ) :
    ∀ (i : ℕ) (v : ℚ), i < l.length →
      countNZ (l.set i v) + (if l.getD i 0 ≠ 0 then 1 else 0) =
        countNZ l + (if v ≠ 0 then 1 else 0) := by
  induction l with
  | nil => intro i v h; simp at h
  | cons x t ih =>
    intro i v h
    cases i with
    | zero =>
      simp only [List.set_cons_zero, List.getD_cons_zero, countNZ_cons]
      omega
    | succ m =>
      simp only [List.set_cons_succ, List.getD_cons_succ, countNZ_cons]
      have := ih m v (by simpa using h)
      omega

theorem countNZ_zero_iff (l : List ℚ) :
    countNZ l = 0 ↔ ∀ b ∈ l, b = 0 := by
  induction l with
  | nil => simp [countNZ]
  | cons x t ih =>
    rw [countNZ_cons]
    by_cases h : x = 0
    · simp [h, ih]
    · simp [h]

theorem countNZ_le_length (l : List ℚ) : countNZ l ≤ l.length :=
  List.length_filter_le _ l

theorem argmaxAux_ge_init :
    ∀ (xs : List ℚ) (i bi : ℕ) (bv : ℚ), bv ≤ (argmaxAux xs i bi bv).2 := by
  intro xs
  induction xs with
  | nil => intro i bi bv; exact le_refl bv
  | cons x t ih =>
    intro i bi bv
    simp only [argmaxAux]
    by_cases h : bv < x
    · rw [if_pos h]
      exact le_of_lt (lt_of_lt_of_le h (ih (i + 1) i x))
    · rw [if_neg h]
      exact ih (i + 1) bi bv

theorem argmaxAux_ge_mem :
    ∀ (xs : List ℚ) (i bi : ℕ) (bv : ℚ) (b : ℚ), b ∈ xs →
      b ≤ (argmaxAux xs i bi bv).2 := by
  intro xs
  induction xs with
  | nil => intro i bi bv b hb; simp at hb
  | cons x t ih =>
    intro i bi bv b hb
    simp only [argmaxAux]
    rcases List.mem_cons.mp hb with rfl | hb2
    · by_cases h : bv < b
      · rw [if_pos h]
        exact argmaxAux_ge_init t (i + 1) i b
      · rw [if_neg h]
        exact le_trans (le_of_not_lt h) (argmaxAux_ge_init t (i + 1) bi bv)
    · by_cases h : bv < x
      · rw [if_pos h]
        exact ih (i + 1) i x b hb2
      · rw [if_neg h]
        exact ih (i + 1) bi bv b hb2

theorem argmaxAux_getD (full : List ℚ) :
    ∀ (xs : List ℚ) (i bi : ℕ) (bv : ℚ),
      bi < full.length →
      full.getD bi 0 = bv →
      (∀ j, j < xs.length → full.getD (i + j) 0 = xs.getD j 0) →
      i + xs.length ≤ full.length →
      (argmaxAux xs i bi bv).1 < full.length ∧
        full.getD (argmaxAux xs i bi bv).1 0 = (argmaxAux xs i bi bv).2 := by
  intro xs
  induction xs with
  | nil =>
    intro i bi bv h1 h2 _ _
    exact ⟨h1, h2⟩
  | cons x t ih =>
    intro i bi bv h1 h2 hj hlen
    simp only [List.length_cons] at hlen
    simp only [argmaxAux]
    by_cases h : bv < x
    · rw [if_pos h]
      apply ih (i + 1) i x
      · omega
      · have := hj 0 (by simp)
        simpa using this
      · intro j hjlt
        have := hj (j + 1) (by simpa using Nat.succ_lt_succ hjlt)
        rw [show i + 1 + j = i + (j + 1) from by omega]
        rw [this]
        simp
      · omega
    · rw [if_neg h]
      apply ih (i + 1) bi bv h1 h2
      · intro j hjlt
        have := hj (j + 1) (by simpa using Nat.succ_lt_succ hjlt)
        rw [show i + 1 + j = i + (j + 1) from by omega]
        rw [this]
        simp
      · omega

theorem argmax_spec (l : List ℚ) (hne : l ≠ []) :
    argmaxIdx l < l.length ∧ (∀ b ∈ l, b ≤ l.getD (argmaxIdx l) 0) := by
  match l, hne with
  | x :: xs, _ =>
    have hspec := argmaxAux_getD (x :: xs) xs 1 0 x (by simp) (by simp)
      (fun j hj => by
        rw [show 1 + j = j + 1 from by omega]
        simp) (by simp; omega)
    constructor
    · exact hspec.1
    · intro b hb
      show b ≤ (x :: xs).getD (argmaxAux xs 1 0 x).1 0
      rw [hspec.2]
      rcases List.mem_cons.mp hb with rfl | hb2
      · exact argmaxAux_ge_init xs 1 0 b
      · exact argmaxAux_ge_mem xs 1 0 x b hb2

theorem argminAux_le_init :
    ∀ (xs : List ℚ) (i bi : ℕ) (bv : ℚ), (argminAux xs i bi bv).2 ≤ bv := by
  intro xs
  induction xs with
  | nil => intro i bi bv; exact le_refl bv
  | cons x t ih =>
    intro i bi bv
    simp only [argminAux]
    by_cases h : x < bv
    · rw [if_pos h]
      exact le_of_lt (lt_of_le_of_lt (ih (i + 1) i x) h)
    · rw [if_neg h]
      exact ih (i + 1) bi bv

theorem argminAux_le_mem :
    ∀ (xs : List ℚ) (i bi : ℕ) (bv : ℚ) (b : ℚ), b ∈ xs →
      (argminAux xs i bi bv).2 ≤ b := by
  intro xs
  induction xs with
  | nil => intro i bi bv b hb; simp at hb
  | cons x t ih =>
    intro i bi bv b hb
    simp only [argminAux]
    rcases List.mem_cons.mp hb with rfl | hb2
    · by_cases h : b < bv
      · rw [if_pos h]
        exact argminAux_le_init t (i + 1) i b
      · rw [if_neg h]
        exact le_trans (argminAux_le_init t (i + 1) bi bv) (le_of_not_lt h)
    · by_cases h : x < bv
      · rw [if_pos h]
        exact ih (i + 1) i x b hb2
      · rw [if_neg h]
        exact ih (i + 1) bi bv b hb2

theorem argminAux_getD (full : List ℚ) :
    ∀ (xs : List ℚ) (i bi : ℕ) (bv : ℚ),
      bi < full.length →
      full.getD bi 0 = bv →
      (∀ j, j < xs.length → full.getD (i + j) 0 = xs.getD j 0) →
      i + xs.length ≤ full.length →
      (argminAux xs i bi bv).1 < full.length ∧
        full.getD (argminAux xs i bi bv).1 0 = (argminAux xs i bi bv).2 := by
  intro xs
  induction xs with
  | nil =>
    intro i bi bv h1 h2 _ _
    exact ⟨h1, h2⟩
  | cons x t ih =>
    intro i bi bv h1 h2 hj hlen
    simp only [List.length_cons] at hlen
    simp only [argminAux]
    by_cases h : x < bv
    · rw [if_pos h]
      apply ih (i + 1) i x
      · omega
      · have := hj 0 (by simp)
        simpa using this
      · intro j hjlt
        have := hj (j + 1) (by simpa using Nat.succ_lt_succ hjlt)
        rw [show i + 1 + j = i + (j + 1) from by omega]
        rw [this]
        simp
      · omega
    · rw [if_neg h]
      apply ih (i + 1) bi bv h1 h2
      · intro j hjlt
        have := hj (j + 1) (by simpa using Nat.succ_lt_succ hjlt)
        rw [show i + 1 + j = i + (j + 1) from by omega]
        rw [this]
        simp
      · omega

theorem argmin_spec (l : List ℚ) (hne : l ≠ []) :
    argminIdx l < l.length ∧ (∀ b ∈ l, l.getD (argminIdx l) 0 ≤ b) := by
  match l, hne with
  | x :: xs, _ =>
    have hspec := argminAux_getD (x :: xs) xs 1 0 x (by simp) (by simp)
      (fun j hj => by
        rw [show 1 + j = j + 1 from by omega]
        simp) (by simp; omega)
    constructor
    · exact hspec.1
    · intro b hb
      show (x :: xs).getD (argminAux xs 1 0 x).1 0 ≤ b
      rw [hspec.2]
      rcases List.mem_cons.mp hb with rfl | hb2
      · exact argminAux_le_init xs 1 0 b
      · exact argminAux_le_mem xs 1 0 x b hb2

theorem all_nonneg_sum_zero (l : List ℚ) :
    (∀ b ∈ l, 0 ≤ b) → l.sum = 0 → ∀ b ∈ l, b = 0 := by
  induction l with
  | nil => intro _ _ b hb; simp at hb
  | cons x t ih =>
    intro hle hs b hb
    have hx : 0 ≤ x := hle x (List.mem_cons_self x t)
    have hts : 0 ≤ t.sum :=
      List.sum_nonneg (fun c hc => hle c (List.mem_cons_of_mem x hc))
    simp only [List.sum_cons] at hs
    have hx0 : x = 0 := by linarith
    have ht0 : t.sum = 0 := by linarith
    rcases List.mem_cons.mp hb with rfl | hb2
    · exact hx0
    · exact ih (fun c hc => hle c (List.mem_cons_of_mem x hc)) ht0 b hb2

theorem sum_map_neg (l : List ℚ) : (l.map (fun c => -c)).sum = -l.sum := by
  induction l with
  | nil => simp
  | cons y u ihu =>
    simp only [List.map_cons, List.sum_cons, ihu]
    ring

theorem all_nonpos_sum_zero (l : List ℚ) :
    (∀ b ∈ l, b ≤ 0) → l.sum = 0 → ∀ b ∈ l, b = 0 := by
  induction l with
  | nil => intro _ _ b hb; simp at hb
  | cons x t ih =>
    intro hle hs b hb
    have hx : x ≤ 0 := hle x (List.mem_cons_self x t)
    have hts : t.sum ≤ 0 := by
      have hneg : 0 ≤ (t.map (fun c => -c)).sum :=
        List.sum_nonneg (fun c hc => by
          rcases List.mem_map.mp hc with ⟨d, hd, rfl⟩
          simpa using hle d (List.mem_cons_of_mem x hd))
      rw [sum_map_neg] at hneg
      linarith
    simp only [List.sum_cons] at hs
    have hx0 : x = 0 := by linarith
    have ht0 : t.sum = 0 := by linarith
    rcases List.mem_cons.mp hb with rfl | hb2
    · exact hx0
    · exact ih (fun c hc => hle c (List.mem_cons_of_mem x hc)) ht0 b hb2

theorem cent_lt_hundredth {q : ℚ} (hc : Cent q) (h : q < 1/100) : q ≤ 0 := by
  obtain ⟨k, rfl⟩ := hc
  have hk : (k : ℚ) < 1 := by linarith
  have hk2 : k < 1 := by exact_mod_cast hk
  have hk3 : k ≤ 0 := by omega
  have : (k : ℚ) ≤ 0 := by exact_mod_cast hk3
  linarith

theorem settleStep_none_all_zero (ps : List String) (cur : String)
    (bs : List ℚ) (hc : ∀ b ∈ bs, Cent b) (hs : bs.sum = 0)
    (h : settleStep ps cur bs = none) : ∀ b ∈ bs, b = 0 := by
  by_cases hne : bs = []
  · subst hne
    intro b hb
    simp at hb
  · obtain ⟨himax, hmax⟩ := argmax_spec bs hne
    obtain ⟨himin, hmin⟩ := argmin_spec bs hne
    have hcmc : Cent (bs.getD (argmaxIdx bs) 0) := hc _ (getD_mem bs _ himax)
    have hcmd : Cent (bs.getD (argminIdx bs) 0) := hc _ (getD_mem bs _ himin)
    simp only [settleStep] at h
    by_cases h1 : bs.getD (argmaxIdx bs) 0 < 1/100 ∧
        |bs.getD (argminIdx bs) 0| < 1/100
    · intro b hb
      have hble : b ≤ bs.getD (argmaxIdx bs) 0 := hmax b hb
      have hbge : bs.getD (argminIdx bs) 0 ≤ b := hmin b hb
      have hb0 : b ≤ 0 := cent_lt_hundredth (hc b hb)
        (lt_of_le_of_lt hble h1.1)
      have hb0' : -b ≤ 0 := cent_lt_hundredth (hc b hb).neg (by
        have hmdgt : -(1/100 : ℚ) < bs.getD (argminIdx bs) 0 :=
          neg_lt_of_abs_lt h1.2
        have : -(1/100 : ℚ) < b := lt_of_lt_of_le hmdgt hbge
        linarith)
      linarith
    · rw [if_neg h1] at h
      by_cases h2 : round2 (min (bs.getD (argmaxIdx bs) 0)
          |bs.getD (argminIdx bs) 0|) < 1/100
      case neg =>
        rw [if_neg h2] at h
        exact absurd h (by simp)
      · have hcmin : Cent (min (bs.getD (argmaxIdx bs) 0)
            |bs.getD (argminIdx bs) 0|) := hcmc.min hcmd.abs
        rw [round2_cent hcmin] at h2
        have hmin_le : min (bs.getD (argmaxIdx bs) 0)
            |bs.getD (argminIdx bs) 0| ≤ 0 := cent_lt_hundredth hcmin h2
        rcases min_le_iff.mp hmin_le with hmc0 | hmd0
        · exact all_nonpos_sum_zero bs
            (fun b hb => le_trans (hmax b hb) hmc0) hs
        · have hmd0' : bs.getD (argminIdx bs) 0 = 0 :=
            abs_eq_zero.mp (le_antisymm hmd0 (abs_nonneg _))
          exact all_nonneg_sum_zero bs
            (fun b hb => by
              rw [← hmd0']
              exact hmin b hb) hs

theorem applySettlement_set (ps : List String) (cur : String) (bs : List ℚ)
    (i j : ℕ) (t : ℚ) (hnd : ps.Nodup) (hlen : ps.length = bs.length)
    (hi : i < bs.length) (hj : j < bs.length) (hij : i ≠ j) :
    applySettlement ps
      (Settlement.mk (ps.getD j ("")) (ps.getD i ("")) t cur) bs =
    (bs.set i (bs.getD i 0 - t)).set j (bs.getD j 0 + t) := by
  have hip : i < ps.length := by omega
  have hjp : j < ps.length := by omega
  have hfrom : ps.getD j ("") = ps[j] := List.getD_eq_getElem ps ("") hjp
  have hto : ps.getD i ("") = ps[i] := List.getD_eq_getElem ps ("") hip
  apply List.ext_getElem
  · simp [applySettlement, List.length_zip, hlen]
  · intro k h1 h2
    have hk : k < bs.length := by
      simpa using h2
    have hkp : k < ps.length := by omega
    have hzip : k < (ps.zip bs).length := by
      simp [List.length_zip]
      omega
    show (List.map _ (ps.zip bs))[k] = _
    rw [List.getElem_map, List.getElem_zip]
    dsimp only
    simp only [hfrom, hto]
    have hinj : ∀ (m : ℕ) (hm : m < ps.length), ps[k] = ps[m] ↔ k = m := by
      intro m hm
      constructor
      · intro he
        have := (List.Nodup.get_inj_iff hnd (i := ⟨k, hkp⟩)
          (j := ⟨m, hm⟩)).mp (by simpa [List.get_eq_getElem] using he)
        simpa using this
      · intro he
        subst he
        rfl
    by_cases hkj : k = j
    · subst hkj
      simp only [if_true]
      rw [List.getElem_set_self, List.getD_eq_getElem bs 0 hj]
    · by_cases hki : k = i
      · subst hki
        rw [if_neg (by
          intro hcon
          exact hkj ((hinj j hjp).mp hcon))]
        simp only [if_true]
        rw [List.getElem_set_ne (by omega), List.getElem_set_self,
          List.getD_eq_getElem bs 0 hi]
      · rw [if_neg (by
          intro hcon
          exact hkj ((hinj j hjp).mp hcon))]
        rw [if_neg (by
          intro hcon
          exact hki ((hinj i hip).mp hcon))]
        rw [List.getElem_set_ne (by omega), List.getElem_set_ne (by omega)]

theorem settleStep_some (ps : List String) (cur : String) (bs : List ℚ)
    (s : Settlement) (bs2 : List ℚ)
    (hc : ∀ b ∈ bs, Cent b) (hs : bs.sum = 0)
    (h : settleStep ps cur bs = some (s, bs2)) :
    (∀ b ∈ bs2, Cent b) ∧ bs2.sum = 0 ∧ bs2.length = bs.length ∧
      countNZ bs2 + 1 ≤ countNZ bs ∧ 2 ≤ countNZ bs ∧
      (ps.Nodup → ps.length = bs.length → applySettlement ps s bs = bs2) := by
  by_cases hne : bs = []
  · exfalso
    subst hne
    simp only [settleStep] at h
    rw [if_pos (by norm_num [argmaxIdx, argminIdx, List.getD])] at h
    exact absurd h (by simp)
  · obtain ⟨himax, hmax⟩ := argmax_spec bs hne
    obtain ⟨himin, hmin⟩ := argmin_spec bs hne
    simp only [settleStep] at h
    set i := argmaxIdx bs with hidef
    set j := argminIdx bs with hjdef
    set mc := bs.getD i 0 with hmcdef
    set md := bs.getD j 0 with hmddef
    have hcmc : Cent mc := hc _ (getD_mem bs i himax)
    have hcmd : Cent md := hc _ (getD_mem bs j himin)
    by_cases h1 : mc < 1/100 ∧ |md| < 1/100
    · rw [if_pos h1] at h
      exact absurd h (by simp)
    · rw [if_neg h1] at h
      set t := round2 (min mc |md|) with htdef
      by_cases h2 : t < 1/100
      · rw [if_pos h2] at h
        exact absurd h (by simp)
      · rw [if_neg h2] at h
        have hcmin : Cent (min mc |md|) := hcmc.min hcmd.abs
        have htmin : t = min mc |md| := by
          rw [htdef]
          exact round2_cent hcmin
        have hct : Cent t := by
          rw [htmin]
          exact hcmin
        have htge : 1/100 ≤ t := le_of_not_lt h2
        have htlemc : t ≤ mc := by
          rw [htmin]
          exact min_le_left _ _
        have htlemd : t ≤ |md| := by
          rw [htmin]
          exact min_le_right _ _
        have hmcge : 1/100 ≤ mc := le_trans htge htlemc
        have hmdabs : 1/100 ≤ |md| := le_trans htge htlemd
        have hmdle : md ≤ 0 := by
          by_contra hpos
          push_neg at hpos
          have hallpos : ∀ b ∈ bs, 0 < b :=
            fun b hb => lt_of_lt_of_le hpos (hmin b hb)
          have := List.sum_pos bs hallpos hne
          linarith
        have habs : |md| = -md := abs_of_nonpos hmdle
        have hmdneg : md ≤ -(1/100) := by
          rw [habs] at hmdabs
          linarith
        have hij : i ≠ j := by
          intro he
          rw [hmcdef, he, ← hmddef] at hmcge
          linarith
        have hmcne : mc ≠ 0 := by
          intro h0
          rw [h0] at hmcge
          linarith
        have hmdne : md ≠ 0 := by
          intro h0
          rw [h0] at hmdneg
          linarith
        simp only [Option.some.injEq, Prod.mk.injEq] at h
        obtain ⟨hseq, hbseq⟩ := h
        have hgetj : (bs.set i (mc - t)).getD j 0 = md := by
          rw [getD_set_other bs i j _ hij, ← hmddef]
        rw [hgetj] at hbseq
        have hlen1 : (bs.set i (mc - t)).length = bs.length :=
          List.length_set bs i (mc - t)
        have hlen2 : bs2.length = bs.length := by
          rw [← hbseq, List.length_set, hlen1]
        have hjlt1 : j < (bs.set i (mc - t)).length := by
          rw [hlen1]
          exact himin
        have hilt2 : i < bs2.length := by
          rw [hlen2]
          exact himax
        have hjlt2 : j < bs2.length := by
          rw [hlen2]
          exact himin
        have hvi_getD : bs2.getD i 0 = mc - t := by
          rw [← hbseq, getD_set_other _ j i _ (fun he => hij he.symm),
            getD_set_self bs i (mc - t) himax]
        have hvj_getD : bs2.getD j 0 = md + t := by
          rw [← hbseq, getD_set_self _ j (md + t) hjlt1]
        have hvi_mem : mc - t ∈ bs2 := by
          rw [← hvi_getD]
          exact getD_mem bs2 i hilt2
        have hvj_mem : md + t ∈ bs2 := by
          rw [← hvj_getD]
          exact getD_mem bs2 j hjlt2
        refine ⟨?_, ?_, hlen2, ?_, ?_, ?_⟩
        · intro b hb
          rw [← hbseq] at hb
          rcases List.mem_or_eq_of_mem_set hb with hb1 | rfl
          · rcases List.mem_or_eq_of_mem_set hb1 with hb2 | rfl
            · exact hc b hb2
            · exact hcmc.sub hct
          · exact hcmd.add hct
        · rw [← hbseq, sum_set _ j (md + t) hjlt1, hgetj,
            sum_set bs i (mc - t) himax, ← hmcdef, hs]
          ring
        · have e1 := countNZ_set bs i (mc - t) himax
          have e2 := countNZ_set (bs.set i (mc - t)) j (md + t) hjlt1
          rw [← hmcdef, if_pos hmcne] at e1
          rw [hgetj, if_pos hmdne, hbseq] at e2
          have hz : mc - t = 0 ∨ md + t = 0 := by
            rcases min_choice mc |md| with hch | hch
            · left
              rw [htmin, hch]
              ring
            · right
              rw [htmin, hch, habs]
              ring
          rcases hz with hz | hz
          · rw [if_neg (by simp [hz])] at e1
            by_cases hb0 : (md + t) ≠ 0
            · rw [if_pos hb0] at e2
              omega
            · rw [if_neg hb0] at e2
              omega
          · rw [if_neg (by simp [hz])] at e2
            by_cases hb0 : (mc - t) ≠ 0
            · rw [if_pos hb0] at e1
              omega
            · rw [if_neg hb0] at e1
              omega
        · have e1 := countNZ_set bs i (mc - t) himax
          have e2 := countNZ_set (bs.set i (mc - t)) j (md + t) hjlt1
          rw [← hmcdef, if_pos hmcne] at e1
          rw [hgetj, if_pos hmdne, hbseq] at e2
          by_cases hC : countNZ bs2 = 0
          · have hall := (countNZ_zero_iff bs2).mp hC
            have hvi0 : mc - t = 0 := hall _ hvi_mem
            have hvj0 : md + t = 0 := hall _ hvj_mem
            rw [if_neg (by simp [hvi0])] at e1
            rw [if_neg (by simp [hvj0])] at e2
            omega
          · have hz : mc - t = 0 ∨ md + t = 0 := by
              rcases min_choice mc |md| with hch | hch
              · left
                rw [htmin, hch]
                ring
              · right
                rw [htmin, hch, habs]
                ring
            rcases hz with hz | hz
            · rw [if_neg (by simp [hz])] at e1
              by_cases hb0 : (md + t) ≠ 0
              · rw [if_pos hb0] at e2
                omega
              · rw [if_neg hb0] at e2
                omega
            · rw [if_neg (by simp [hz])] at e2
              by_cases hb0 : (mc - t) ≠ 0
              · rw [if_pos hb0] at e1
                omega
              · rw [if_neg hb0] at e1
                omega
        · intro hnd hplen
          rw [← hseq, ← hbseq]
          have := applySettlement_set ps cur bs i j t hnd hplen himax himin hij
          rw [← hmcdef, ← hmddef] at this
          exact this

theorem settleLoop_spec :
    ∀ (fuel : ℕ) (ps : List String) (cur : String) (bs : List ℚ),
      (∀ b ∈ bs, Cent b) → bs.sum = 0 → countNZ bs ≤ fuel →
      (∀ b ∈ (settleLoop fuel ps cur bs).2, b = 0) ∧
      (settleLoop fuel ps cur bs).1.length + 1 ≤ max 1 (countNZ bs) ∧
      (ps.Nodup → ps.length = bs.length →
        applySettlements ps (settleLoop fuel ps cur bs).1 bs =
          (settleLoop fuel ps cur bs).2) := by
  intro fuel
  induction fuel with
  | zero =>
    intro ps cur bs hc hs hf
    have hall : ∀ b ∈ bs, b = 0 :=
      (countNZ_zero_iff bs).mp (Nat.le_zero.mp hf)
    refine ⟨hall, ?_, fun _ _ => rfl⟩
    have h0 : (settleLoop 0 ps cur bs).1.length = 0 := rfl
    omega
  | succ fuel ih =>
    intro ps cur bs hc hs hf
    cases hstep : settleStep ps cur bs with
    | none =>
      have hall := settleStep_none_all_zero ps cur bs hc hs hstep
      simp only [settleLoop, hstep]
      refine ⟨hall, ?_, fun _ _ => rfl⟩
      simp only [List.length_nil]
      omega
    | some pr =>
      obtain ⟨s, bs2⟩ := pr
      obtain ⟨hc2, hs2, hlen2, hcnt, hcnt2, happ⟩ :=
        settleStep_some ps cur bs s bs2 hc hs hstep
      have hf2 : countNZ bs2 ≤ fuel := by omega
      obtain ⟨ih1, ih2, ih3⟩ := ih ps cur bs2 hc2 hs2 hf2
      simp only [settleLoop, hstep]
      refine ⟨ih1, ?_, ?_⟩
      · simp only [List.length_cons]
        omega
      · intro hnd hplen
        have hplen2 : ps.length = bs2.length := by omega
        show applySettlements ps (s :: (settleLoop fuel ps cur bs2).1) bs = _
        rw [show applySettlements ps (s :: (settleLoop fuel ps cur bs2).1) bs =
          applySettlements ps (settleLoop fuel ps cur bs2).1
            (applySettlement ps s bs) from rfl]
        rw [happ hnd hplen]
        exact ih3 hnd hplen2

/-- Claim C3 (amended): for every balance vector of whole-cent amounts (as
`get_balances` produces) whose sum is exactly zero, applying every emitted
settlement (debtor credited, creditor debited) yields the loop's final
balances, and every resulting balance is exactly zero (in particular within
0.01 of zero). -/
theorem settlement_zeroes_balances (ps : List String) (cur : String)
    (bs : List ℚ) (fuel : ℕ)
    (hc : ∀ b ∈ bs, (100 * b).den = 1) (hs : bs.sum = 0)
    (hf : countNZ bs ≤ fuel) (hnd : ps.Nodup)
    (hlen : ps.length = bs.length) :
    applySettlements ps (settleLoop fuel ps cur bs).1 bs =
      (settleLoop fuel ps cur bs).2 ∧
    ∀ b ∈ applySettlements ps (settleLoop fuel ps cur bs).1 bs,
      b = 0 ∧ |b| ≤ 1/100 := by
  have hc2 : ∀ b ∈ bs, Cent b := fun b hb => (cent_iff_den b).mpr (hc b hb)
  obtain ⟨h1, _, h3⟩ := settleLoop_spec fuel ps cur bs hc2 hs hf
  have happ := h3 hnd hlen
  refine ⟨happ, ?_⟩
  intro b hb
  rw [happ] at hb
  have hb0 := h1 b hb
  refine ⟨hb0, ?_⟩
  rw [hb0]
  norm_num

/-- Witness for the amended C3 on the spec scenario balances
`[+60, -30, -30]`. -/
theorem settlement_zeroes_balances_witness :
    applySettlements [("a"), ("b"), ("c")]
      (settleLoop 3 [("a"), ("b"), ("c")] ("BGN") [60, -30, -30]).1
      [60, -30, -30] =
      (settleLoop 3 [("a"), ("b"), ("c")] ("BGN") [60, -30, -30]).2 ∧
    ∀ b ∈ applySettlements [("a"), ("b"), ("c")]
      (settleLoop 3 [("a"), ("b"), ("c")] ("BGN") [60, -30, -30]).1
      [60, -30, -30], b = 0 ∧ |b| ≤ 1/100 :=
  settlement_zeroes_balances [("a"), ("b"), ("c")] ("BGN") [60, -30, -30] 3
    (by with_unfolding_all decide)
    ((qeqB_iff _ _).mp (by with_unfolding_all decide))
    (by with_unfolding_all decide) (by decide) (by decide)

/-- Counterexample to claim C3 as stated: the balance vector
`[0.02, -0.004, -0.004, -0.004, -0.004, -0.004]` sums to exactly zero, yet
the loop's dust guard (`transfer < 0.01`) exits immediately, emitting no
settlements and leaving a balance of 0.02, outside 0.01. -/
theorem settlement_within_tolerance_cex :
    ([1/50, -1/250, -1/250, -1/250, -1/250, -1/250] : List ℚ).sum = 0 ∧
    ¬ (∀ b ∈ applySettlements [("a"), ("b"), ("c"), ("d"), ("e"), ("f")]
        (settleLoop 7 [("a"), ("b"), ("c"), ("d"), ("e"), ("f")] ("BGN")
          [1/50, -1/250, -1/250, -1/250, -1/250, -1/250]).1
        [1/50, -1/250, -1/250, -1/250, -1/250, -1/250], |b| ≤ 1/100) := by
  refine ⟨(qeqB_iff _ _).mp (by with_unfolding_all decide), ?_⟩
  with_unfolding_all decide

/-- Claim C4 (amended): on whole-cent balance vectors summing to zero, each
emitting iteration strictly reduces the number of non-zero balances, so the
loop emits at most `max(0, (#non-zero balances) - 1)` settlements, and the
number of non-zero balances is at most the number of participants `n` (so
at most `n - 1` iterations).  The bound of the original claim, stated with
`k = #{|b| > 0.01}`, is false: balances of exactly ±0.01 are settled but
not counted by `k`. -/
theorem settlement_iteration_bound (ps : List String) (cur : String)
    (bs : List ℚ) (fuel : ℕ)
    (hc : ∀ b ∈ bs, (100 * b).den = 1) (hs : bs.sum = 0)
    (hf : countNZ bs ≤ fuel) :
    (settleLoop fuel ps cur bs).1.length ≤ countNZ bs - 1 ∧
    countNZ bs ≤ bs.length ∧
    (∀ s bs2, settleStep ps cur bs = some (s, bs2) →
      countNZ bs2 < countNZ bs) := by
  have hc2 : ∀ b ∈ bs, Cent b := fun b hb => (cent_iff_den b).mpr (hc b hb)
  obtain ⟨_, h2, _⟩ := settleLoop_spec fuel ps cur bs hc2 hs hf
  refine ⟨by omega, countNZ_le_length bs, ?_⟩
  intro s bs2 hstep
  obtain ⟨_, _, _, hcnt, _, _⟩ := settleStep_some ps cur bs s bs2 hc2 hs hstep
  omega

/-- Witness for the amended C4 on the balances `[+60, -30, -30]`. -/
theorem settlement_iteration_bound_witness :
    (settleLoop 3 [("a"), ("b"), ("c")] ("BGN") [60, -30, -30]).1.length ≤
      countNZ [60, -30, -30] - 1 ∧
    countNZ [60, -30, -30] ≤ ([60, -30, -30] : List ℚ).length ∧
    (∀ s bs2, settleStep [("a"), ("b"), ("c")] ("BGN") [60, -30, -30] =
      some (s, bs2) → countNZ bs2 < countNZ [60, -30, -30]) :=
  settlement_iteration_bound [("a"), ("b"), ("c")] ("BGN") [60, -30, -30] 3
    (by with_unfolding_all decide)
    ((qeqB_iff _ _).mp (by with_unfolding_all decide))
    (by with_unfolding_all decide)

/-- Counterexample to claim C4 as stated: on balances `[0.01, -0.01]`
(sum zero) the loop emits one settlement, but
`k = #{|b| > 0.01} = 0`, so the claimed bound `max(0, k - 1) = 0`
(which is exactly `calculate_min_transactions`) is violated. -/
theorem settlement_min_transactions_cex :
    ([1/100, -1/100] : List ℚ).sum = 0 ∧
    calculateMinTransactions [1/100, -1/100] = 0 ∧
    ¬ (((settleLoop 3 [("a"), ("b")] ("BGN") [1/100, -1/100]).1.length : ℤ)
        ≤ calculateMinTransactions [1/100, -1/100]) := by
  refine ⟨(qeqB_iff _ _).mp (by with_unfolding_all decide), ?_, ?_⟩
  · with_unfolding_all decide
  · with_unfolding_all decide

/-- Claim C7: settlement planning is a pure function of the current balance
table and base currency: it is recomputed fresh on every call (the source
mutates only a local copy of the balances array), so two calls with no
intervening change to the group produce identical settlement sequences. -/
theorem settlement_planning_idempotent (g1 g2 : ExpenseGroup)
    (hb : getBalances g1 = getBalances g2)
    (hcur : g1.base_currency = g2.base_currency) :
    calculateOptimalSettlements g1 = calculateOptimalSettlements g2 := by
  unfold calculateOptimalSettlements
  rw [hb, hcur]

/-- Witness for C7: two calls on the unchanged group `g6` agree. -/
theorem settlement_planning_idempotent_witness :
    calculateOptimalSettlements g6 = calculateOptimalSettlements g6 :=
  settlement_planning_idempotent g6 g6 rfl rfl

/-- Counterexample to claim C10: `add_expense_shares` with share counts
summing to 0 does not raise a division-by-zero error — numpy division of
integer scalars by zero yields NaN with a runtime warning — so the call
returns successfully. -/
theorem division_guard_cex :
    (([("a", (0 : ℤ)), ("b", 0)].map Prod.snd).sum = 0) ∧
    allocOk (addExpenseShares gW ("gift") 10 ("a") [("a", 0), ("b", 0)]
      ("BGN") none) = true := by
  refine ⟨by decide, ?_⟩
  with_unfolding_all decide

/-- Claim C10 (amended): `add_expense_equal` with an empty participant list
raises `ZeroDivisionError` (`total_amount / n` with `n = 0` is a Python
float division), but `add_expense_shares` with share counts summing to 0
raises nothing: numpy evaluates the 0/0 share fractions to NaN with a
warning and the expense is appended; totality of meaningful amounts
requires `n ≥ 1` and `total_shares ≠ 0`. -/
theorem division_guards (g : ExpenseGroup) (desc : String) (t : ℚ)
    (paid : String) (shs : List (String × ℤ)) (cur : String)
    (cat : Option String) (hz : (shs.map Prod.snd).sum = 0) :
    addExpenseEqual g desc t paid (some []) cur cat =
      Except.error ("ZeroDivisionError: division by zero") ∧
    ∃ gr e, addExpenseShares g desc t paid shs cur cat =
      Except.ok (gr, e) := by
  constructor
  · unfold addExpenseEqual
    simp
  · unfold addExpenseShares
    exact ⟨_, _, rfl⟩

/-- Witness for the amended C10 at concrete degenerate inputs. -/
theorem division_guards_witness :
    addExpenseEqual gW ("gift") 10 ("a") (some []) ("BGN") none =
      Except.error ("ZeroDivisionError: division by zero") ∧
    ∃ gr e, addExpenseShares gW ("gift") 10 ("a") [("a", 0), ("b", 0)]
      ("BGN") none = Except.ok (gr, e) :=
  division_guards gW ("gift") 10 ("a") [("a", 0), ("b", 0)] ("BGN") none
    (by decide)
